import Mathlib

/-!
Verification of the `hpoon` mark store (`main.go`).

Go strings are byte sequences; we model them as lists of naturals (a genuine
byte is `< 256`).  The on-disk store file is likewise a list of bytes; a
filesystem state is `Option` of a file content (`none` = file absent).  Go's
`map[string]string` is modelled as an association list with in-place update
(`mapset`) and first-match lookup (`mapget`): since updates keep keys unique,
this is a deterministic refinement of the Go map (Go's iteration order is
unspecified; the list order picks one).
-/

namespace Hpoon

/-- A Go string / byte sequence. -/
abbrev GoStr := List Nat

/-- `LAST_MARKED_KEY = "_"` (byte 95). -/
def LAST_MARKED_KEY : GoStr := [95]

/-- `KV_SEPERATOR = "/"` (byte 47). -/
def KV_SEPERATOR : Nat := 47

/-! ### `encoding/base64` StdEncoding -/

/-- The standard base64 alphabet: index `0..63` to ASCII code. -/
def b64index (i : Nat) : Nat :=
  if i < 26 then 65 + i
  else if i < 52 then 97 + (i - 26)
  else if i < 62 then 48 + (i - 52)
  else if i = 62 then 43
  else 47

/-- Inverse of the alphabet: ASCII code to index, `none` off the alphabet. -/
def b64rev (c : Nat) : Option Nat :=
  if 65 ≤ c ∧ c ≤ 90 then some (c - 65)
  else if 97 ≤ c ∧ c ≤ 122 then some (c - 97 + 26)
  else if 48 ≤ c ∧ c ≤ 57 then some (c - 48 + 52)
  else if c = 43 then some 62
  else if c = 47 then some 63
  else none

/-- `base64.StdEncoding.EncodeToString` on byte input: three input bytes per
four output characters, `=`-padded (61 is ASCII `=`). -/
def b64encode : GoStr → GoStr
  | [] => []
  | [b0] => [b64index (b0 / 4), b64index (b0 % 4 * 16), 61, 61]
  | [b0, b1] => [b64index (b0 / 4), b64index (b0 % 4 * 16 + b1 / 16),
                 b64index (b1 % 16 * 4), 61]
  | b0 :: b1 :: b2 :: rest =>
      b64index (b0 / 4) :: b64index (b0 % 4 * 16 + b1 / 16) ::
      b64index (b1 % 16 * 4 + b2 / 64) :: b64index (b2 % 64) :: b64encode rest

/-- Decode whole quanta of four characters; padding (`=`) may close the last
quantum, and input that is not a whole number of quanta is rejected, as in
Go's padded `StdEncoding`. -/
def b64decodeQuads : GoStr → Option GoStr
  | [] => some []
  | c0 :: c1 :: c2 :: c3 :: rest =>
      match b64rev c0, b64rev c1 with
      | some i0, some i1 =>
          if c2 = 61 then
            if c3 = 61 ∧ rest = [] then some [i0 * 4 + i1 / 16] else none
          else
            match b64rev c2 with
            | some i2 =>
                if c3 = 61 then
                  if rest = [] then some [i0 * 4 + i1 / 16, i1 % 16 * 16 + i2 / 4]
                  else none
                else
                  match b64rev c3 with
                  | some i3 =>
                      (b64decodeQuads rest).map
                        (fun r => (i0 * 4 + i1 / 16) :: (i1 % 16 * 16 + i2 / 4) ::
                                  (i2 % 4 * 64 + i3) :: r)
                  | none => none
            | none => none
      | _, _ => none
  | _ => none

/-- `base64.StdEncoding.DecodeString`: carriage returns and newlines are
ignored, then whole quanta are decoded. -/
def b64decode (s : GoStr) : Option GoStr :=
  b64decodeQuads (s.filter fun c => !(c == 13 || c == 10))

/-! ### Line codec (`parse_hpoon_line` / `create_hpoon_line`) -/

/-- `strings.Split` on a one-byte separator: always returns at least one
(possibly empty) part. -/
def splitByte (b : Nat) : GoStr → List GoStr
  | [] => [[]]
  | c :: rest =>
      if c = b then [] :: splitByte b rest
      else
        match splitByte b rest with
        | [] => [[c]]
        | p :: ps => (c :: p) :: ps

/-- `parse_hpoon_line`: split on the separator; exactly two parts required,
the second base64-decoded.  `none` models the error return. -/
def parse_hpoon_line (line : GoStr) : Option (GoStr × GoStr) :=
  match splitByte KV_SEPERATOR line with
  | [key, value] => (b64decode value).map fun d => (key, d)
  | _ => none

/-- `create_hpoon_line`: `key + "/" + base64(value)`. -/
def create_hpoon_line (key value : GoStr) : GoStr :=
  key ++ KV_SEPERATOR :: b64encode value

/-! ### `bufio.Scanner` line splitting -/

/-- `dropCR`: strip one trailing carriage return (byte 13), as
`bufio.ScanLines` does. -/
def dropCR (l : GoStr) : GoStr :=
  if l.getLast? = some 13 then l.dropLast else l

/-- The token sequence of `bufio.Scanner` with `ScanLines`: split on newline
(byte 10), drop the empty token a trailing newline would produce, strip a
trailing `\r` from each line. -/
def scanLines (content : GoStr) : List GoStr :=
  (if (splitByte 10 content).getLast? = some [] then (splitByte 10 content).dropLast
   else splitByte 10 content).map dropCR

/-! ### The record and the in-memory map -/

/-- `HarpoonRecord`: the last-marked path and the named marks. -/
structure HarpoonRecord where
  last_marked : GoStr
  marks : List (GoStr × GoStr)
deriving DecidableEq

/-- `data[key] = val` on the association list: replace in place or append. -/
def mapset : List (GoStr × GoStr) → GoStr → GoStr → List (GoStr × GoStr)
  | [], k, v => [(k, v)]
  | e :: rest, k, v => if e.1 = k then (k, v) :: rest else e :: mapset rest k v

/-- `data[key]` lookup: first entry with the key. -/
def mapget (m : List (GoStr × GoStr)) (k : GoStr) : Option GoStr :=
  match m with
  | [] => none
  | e :: rest => if e.1 = k then some e.2 else mapget rest k

/-- Processing of one scanned line inside `read_hpoon_file`'s loop: failed
lines are skipped, the reserved key updates `last_marked`, others the map. -/
def read_line_step (st : HarpoonRecord) (line : GoStr) : HarpoonRecord :=
  match parse_hpoon_line line with
  | none => st
  | some (key, val) =>
      if key = LAST_MARKED_KEY then { st with last_marked := val }
      else { st with marks := mapset st.marks key val }

/-- The scan loop of `read_hpoon_file` over a list of lines. -/
def read_lines (lines : List GoStr) (st : HarpoonRecord) : HarpoonRecord :=
  lines.foldl read_line_step st

/-- The record both loop accumulators start from: empty `last_marked`,
empty map. -/
def emptyRecord : HarpoonRecord := ⟨[], []⟩

/-- `read_hpoon_file` on a file content. -/
def read_hpoon_file (content : GoStr) : HarpoonRecord :=
  read_lines (scanLines content) emptyRecord

/-- `write_hpoon_file`: `os.Create` truncates; if `last_marked` is empty
nothing is written, otherwise the reserved line then one line per entry with
a non-empty value, each newline-terminated. -/
def write_hpoon_file (data : HarpoonRecord) : GoStr :=
  if data.last_marked = [] then []
  else
    data.marks.foldl
      (fun acc e => if e.2 = [] then acc else acc ++ (create_hpoon_line e.1 e.2 ++ [10]))
      (create_hpoon_line LAST_MARKED_KEY data.last_marked ++ [10])

/-! ### Repository and command operations -/

/-- A filesystem state for the store file: `none` = absent. -/
abbrev FS := Option GoStr

/-- `load_hpoon`: an absent file is created empty, then read. -/
def load_hpoon (fs : FS) : HarpoonRecord :=
  read_hpoon_file (fs.getD [])

/-- `save_hpoon`: the file is created (truncated) and written. -/
def save_hpoon (data : HarpoonRecord) : FS :=
  some (write_hpoon_file data)

/-- `hpoon_set_mark`: load, set `last_marked`, set `marks[name]` when a name
is given, save. -/
def hpoon_set_mark (fs : FS) (fpath : GoStr) (name : Option GoStr) : FS :=
  let data := load_hpoon fs
  let data := { data with last_marked := fpath }
  let data :=
    match name with
    | some n => { data with marks := mapset data.marks n fpath }
    | none => data
  save_hpoon data

/-- `hpoon_get_mark`: without a name, the `last_marked` pointer (never an
error); with a name, the map lookup, `none` modelling the
"mark does not exist" error. -/
def hpoon_get_mark (fs : FS) (name : Option GoStr) : Option GoStr :=
  let data := load_hpoon fs
  match name with
  | none => some data.last_marked
  | some n => mapget data.marks n

/-- `hpoon_list`: the named entries of the loaded record. -/
def hpoon_list (fs : FS) : List (GoStr × GoStr) :=
  (load_hpoon fs).marks

/-- `hpoon_clean`: `os.Remove` of the store file; a missing file is not an
error (the operation is total). -/
def hpoon_clean (_fs : FS) : FS := none

/-- `run_double_arg`: existence is checked on the argument as given; only the
literal `"."` (byte 46) is replaced by the working directory; the path is
otherwise passed to `hpoon_set_mark` verbatim (the `filepath.Abs` call is
commented out in the source).  `none` models the fatal quit. -/
def run_double_arg (fs : FS) (arg name : GoStr) (path_exists : GoStr → Bool)
    (cwd : GoStr) : Option FS :=
  if !path_exists arg then none
  else some (hpoon_set_mark fs (if arg = [46] then cwd else arg) (some name))

/-- The default branch of `run_single_arg` on a plain path argument (no
name-reference `!`): the argument is resolved by `filepath.Abs` (modelled by
the parameter `abs`) and the absolute form is stored when it exists. -/
def run_single_arg_path (fs : FS) (abs : GoStr → GoStr) (arg : GoStr)
    (path_exists : GoStr → Bool) : Option FS :=
  if path_exists (abs arg) then some (hpoon_set_mark fs (abs arg) none)
  else none

/-! ### Lemmas about the base64 codec -/

theorem b64index_ge (i : Nat) : 43 ≤ b64index i := by
  unfold b64index
  repeat' split
  all_goals omega

theorem b64_mem_ge (bs : GoStr) : ∀ c ∈ b64encode bs, 43 ≤ c := by
  induction bs using b64encode.induct with
  | case1 => simp [b64encode]
  | case2 b0 =>
      intro c hc
      rw [b64encode] at hc
      rcases List.mem_cons.mp hc with h | hc
      · subst h; exact b64index_ge _
      rcases List.mem_cons.mp hc with h | hc
      · subst h; exact b64index_ge _
      rcases List.mem_cons.mp hc with h | hc
      · omega
      rcases List.mem_cons.mp hc with h | hc
      · omega
      · simp at hc
  | case3 b0 b1 =>
      intro c hc
      rw [b64encode] at hc
      rcases List.mem_cons.mp hc with h | hc
      · subst h; exact b64index_ge _
      rcases List.mem_cons.mp hc with h | hc
      · subst h; exact b64index_ge _
      rcases List.mem_cons.mp hc with h | hc
      · subst h; exact b64index_ge _
      rcases List.mem_cons.mp hc with h | hc
      · omega
      · simp at hc
  | case4 b0 b1 b2 rest ih =>
      intro c hc
      rw [b64encode] at hc
      rcases List.mem_cons.mp hc with h | hc
      · subst h; exact b64index_ge _
      rcases List.mem_cons.mp hc with h | hc
      · subst h; exact b64index_ge _
      rcases List.mem_cons.mp hc with h | hc
      · subst h; exact b64index_ge _
      rcases List.mem_cons.mp hc with h | hc
      · subst h; exact b64index_ge _
      · exact ih c hc

theorem b64rev_b64index : ∀ i < 64, b64rev (b64index i) = some i := by decide

theorem b64index_ne_61 : ∀ i < 64, b64index i ≠ 61 := by decide

theorem b64encode_ne_nil (bs : GoStr) (h : bs ≠ []) : b64encode bs ≠ [] := by
  rcases bs with _ | ⟨b0, _ | ⟨b1, _ | ⟨b2, rest⟩⟩⟩ <;> simp [b64encode] at h ⊢

theorem b64decodeQuads_encode (bs : GoStr) (h : ∀ b ∈ bs, b < 256) :
    b64decodeQuads (b64encode bs) = some bs := by
  induction bs using b64encode.induct with
  | case1 => rfl
  | case2 b0 =>
      have hb0 : b0 < 256 := h b0 (by simp)
      have h0 : b0 / 4 < 64 := by omega
      have h1 : b0 % 4 * 16 < 64 := by omega
      simp only [b64encode, b64decodeQuads, b64rev_b64index _ h0, b64rev_b64index _ h1]
      simp
      omega
  | case3 b0 b1 =>
      have hb0 : b0 < 256 := h b0 (by simp)
      have hb1 : b1 < 256 := h b1 (by simp)
      have h0 : b0 / 4 < 64 := by omega
      have h1 : b0 % 4 * 16 + b1 / 16 < 64 := by omega
      have h2 : b1 % 16 * 4 < 64 := by omega
      simp only [b64encode, b64decodeQuads, b64rev_b64index _ h0, b64rev_b64index _ h1,
        b64rev_b64index _ h2, b64index_ne_61 _ h2, if_false]
      simp
      omega
  | case4 b0 b1 b2 rest ih =>
      have hb0 : b0 < 256 := h b0 (by simp)
      have hb1 : b1 < 256 := h b1 (by simp)
      have hb2 : b2 < 256 := h b2 (by simp)
      have hrest : ∀ b ∈ rest, b < 256 := fun b hb => h b (by simp [hb])
      have h0 : b0 / 4 < 64 := by omega
      have h1 : b0 % 4 * 16 + b1 / 16 < 64 := by omega
      have h2 : b1 % 16 * 4 + b2 / 64 < 64 := by omega
      have h3 : b2 % 64 < 64 := by omega
      simp only [b64encode, b64decodeQuads, b64rev_b64index _ h0, b64rev_b64index _ h1,
        b64rev_b64index _ h2, b64rev_b64index _ h3, b64index_ne_61 _ h2,
        b64index_ne_61 _ h3, if_false, ih hrest, Option.map_some]
      simp
      omega

theorem b64decode_encode (bs : GoStr) (h : ∀ b ∈ bs, b < 256) :
    b64decode (b64encode bs) = some bs := by
  have hf : (b64encode bs).filter (fun c => !(c == 13 || c == 10)) = b64encode bs := by
    apply List.filter_eq_self.mpr
    intro c hc
    have := b64_mem_ge bs c hc
    simp only [Bool.not_eq_true', Bool.or_eq_false_iff, beq_eq_false_iff_ne]
    omega
  rw [b64decode, hf]
  exact b64decodeQuads_encode bs h

/-! ### Lemmas about splitting and the line codec -/

theorem splitByte_ne_nil (b : Nat) (s : GoStr) : splitByte b s ≠ [] := by
  induction s with
  | nil => simp [splitByte]
  | cons c rest ih =>
      simp only [splitByte]
      split
      · simp
      · split
        · simp
        · simp

theorem splitByte_append (b : Nat) (l rest : GoStr) (hl : b ∉ l) :
    splitByte b (l ++ b :: rest) = l :: splitByte b rest := by
  induction l with
  | nil => simp [splitByte]
  | cons c l' ih =>
      have hc : ¬ c = b := fun h => hl (by simp [h])
      have hl' : b ∉ l' := fun h => hl (List.mem_cons_of_mem _ h)
      show splitByte b (c :: (l' ++ b :: rest)) = (c :: l') :: splitByte b rest
      rw [splitByte, if_neg hc, ih hl']

theorem splitByte_no_sep (b : Nat) (s : GoStr) (h : b ∉ s) : splitByte b s = [s] := by
  induction s with
  | nil => rfl
  | cons c rest ih =>
      have hc : ¬ c = b := fun hq => h (by simp [hq])
      have hr : b ∉ rest := fun hq => h (List.mem_cons_of_mem _ hq)
      simp only [splitByte, if_neg hc, ih hr]

theorem mem_splitByte (b : Nat) (s : GoStr) :
    ∀ p ∈ splitByte b s, b ∉ p ∧ ∀ x ∈ p, x ∈ s := by
  induction s with
  | nil =>
      intro p hp
      simp [splitByte] at hp
      subst hp; simp
  | cons c rest ih =>
      intro p hp
      simp only [splitByte] at hp
      by_cases hc : c = b
      · rw [if_pos hc] at hp
        rcases List.mem_cons.mp hp with h | h
        · subst h; simp
        · obtain ⟨h1, h2⟩ := ih p h
          exact ⟨h1, fun x hx => List.mem_cons_of_mem _ (h2 x hx)⟩
      · rw [if_neg hc] at hp
        cases hsp : splitByte b rest with
        | nil => exact absurd hsp (splitByte_ne_nil b rest)
        | cons q qs =>
            rw [hsp] at hp
            rcases List.mem_cons.mp hp with h | h
            · subst h
              obtain ⟨h1, h2⟩ := ih q (by rw [hsp]; exact List.mem_cons_self q qs)
              constructor
              · intro hb
                rcases List.mem_cons.mp hb with h' | h'
                · exact hc h'.symm
                · exact h1 h'
              · intro x hx
                rcases List.mem_cons.mp hx with h' | h'
                · simp [h']
                · exact List.mem_cons_of_mem _ (h2 x h')
            · obtain ⟨h1, h2⟩ := ih p (by rw [hsp]; exact List.mem_cons_of_mem _ h)
              exact ⟨h1, fun x hx => List.mem_cons_of_mem _ (h2 x hx)⟩

theorem parse_create (k v : GoStr) (hk : KV_SEPERATOR ∉ k)
    (hv : KV_SEPERATOR ∉ b64encode v) (hb : ∀ x ∈ v, x < 256) :
    parse_hpoon_line (create_hpoon_line k v) = some (k, v) := by
  rw [parse_hpoon_line, create_hpoon_line, splitByte_append _ _ _ hk,
      splitByte_no_sep _ _ hv]
  simp [b64decode_encode v hb]

theorem parse_eq_of_split (l k q : GoStr)
    (h : splitByte KV_SEPERATOR l = [k, q]) :
    parse_hpoon_line l = (b64decode q).map fun d => (k, d) := by
  rw [parse_hpoon_line, h]

theorem parse_eq_none_of_split_long (l : GoStr) (p1 p2 p3 : GoStr) (ps : List GoStr)
    (h : splitByte KV_SEPERATOR l = p1 :: p2 :: p3 :: ps) :
    parse_hpoon_line l = none := by
  rw [parse_hpoon_line, h]

theorem parse_eq_none_of_split_one (l : GoStr) (p1 : GoStr)
    (h : splitByte KV_SEPERATOR l = [p1]) :
    parse_hpoon_line l = none := by
  rw [parse_hpoon_line, h]

theorem parse_key (k w : GoStr) (hk : KV_SEPERATOR ∉ k) (kv : GoStr × GoStr)
    (h : parse_hpoon_line (k ++ KV_SEPERATOR :: w) = some kv) : kv.1 = k := by
  cases hsp : splitByte KV_SEPERATOR w with
  | nil => exact absurd hsp (splitByte_ne_nil _ _)
  | cons q qs =>
      have hall : splitByte KV_SEPERATOR (k ++ KV_SEPERATOR :: w) = k :: q :: qs := by
        rw [splitByte_append _ _ _ hk, hsp]
      cases qs with
      | nil =>
          rw [parse_eq_of_split _ _ _ hall] at h
          simp at h
          obtain ⟨d, _, hkv⟩ := h
          rw [← hkv]
      | cons q2 qs2 =>
          rw [parse_eq_none_of_split_long _ _ _ _ _ hall] at h
          simp at h

theorem parse_mem_key (l : GoStr) (kv : GoStr × GoStr)
    (h : parse_hpoon_line l = some kv) :
    KV_SEPERATOR ∉ kv.1 ∧ ∀ x ∈ kv.1, x ∈ l := by
  cases hsp : splitByte KV_SEPERATOR l with
  | nil => exact absurd hsp (splitByte_ne_nil _ _)
  | cons q qs =>
      cases qs with
      | nil =>
          rw [parse_eq_none_of_split_one _ _ hsp] at h
          simp at h
      | cons q2 qs2 =>
          cases qs2 with
          | nil =>
              rw [parse_eq_of_split _ _ _ hsp] at h
              simp at h
              obtain ⟨d, _, hkv⟩ := h
              have hq : q ∈ splitByte KV_SEPERATOR l := by
                rw [hsp]; exact List.mem_cons_self q _
              have := mem_splitByte KV_SEPERATOR l q hq
              rw [← hkv]
              exact this
          | cons q3 qs3 =>
              rw [parse_eq_none_of_split_long _ _ _ _ _ hsp] at h
              simp at h

theorem create_line_no10 (k v : GoStr) (hk : (10 : Nat) ∉ k) :
    (10 : Nat) ∉ create_hpoon_line k v := by
  rw [create_hpoon_line]
  intro h
  rcases List.mem_append.mp h with h | h
  · exact hk h
  · rcases List.mem_cons.mp h with h | h
    · simp [KV_SEPERATOR] at h
    · have := b64_mem_ge v 10 h
      omega

theorem getLast?_cons_of_ne_nil (s : Nat) (w : GoStr) (hw : w ≠ []) :
    ∃ c ∈ w, (s :: w).getLast? = some c := by
  induction w generalizing s with
  | nil => exact absurd rfl hw
  | cons a w' ih =>
      cases w' with
      | nil => exact ⟨a, by simp, by simp⟩
      | cons b w'' =>
          obtain ⟨c, hc, he⟩ := ih a (by simp)
          exact ⟨c, List.mem_cons_of_mem _ hc, by rw [List.getLast?_cons_cons]; exact he⟩

theorem create_line_getLast (k v : GoStr) (hv : v ≠ []) :
    ∃ c ∈ b64encode v, (create_hpoon_line k v).getLast? = some c := by
  obtain ⟨c, hc, he⟩ :=
    getLast?_cons_of_ne_nil KV_SEPERATOR (b64encode v) (b64encode_ne_nil v hv)
  exact ⟨c, hc, by rw [create_hpoon_line, List.getLast?_append_cons]; exact he⟩

theorem dropCR_of_getLast_ne (l : GoStr) (h : l.getLast? ≠ some 13) : dropCR l = l := by
  rw [dropCR, if_neg h]

/-! ### Lemmas about scanner line splitting -/

theorem scanLines_nil : scanLines [] = [] := by decide

theorem scanLines_cons (l rest : GoStr) (hl : (10 : Nat) ∉ l) :
    scanLines (l ++ 10 :: rest) = dropCR l :: scanLines rest := by
  have hsp := splitByte_append 10 l rest hl
  cases hq : splitByte 10 rest with
  | nil => exact absurd hq (splitByte_ne_nil _ _)
  | cons q qs =>
      rw [hq] at hsp
      rw [scanLines, scanLines, hsp, hq, List.getLast?_cons_cons]
      by_cases he : (q :: qs).getLast? = some []
      · rw [if_pos he, if_pos he, List.dropLast_cons₂, List.map_cons]
      · rw [if_neg he, if_neg he, List.map_cons]

theorem mem_scanLines (c : GoStr) : ∀ l ∈ scanLines c, (10 : Nat) ∉ l := by
  intro l hl
  rw [scanLines] at hl
  obtain ⟨p, hp, hpl⟩ := List.mem_map.mp hl
  have hmem : p ∈ splitByte 10 c := by
    by_cases he : (splitByte 10 c).getLast? = some []
    · rw [if_pos he] at hp
      exact (List.dropLast_sublist _).subset hp
    · rw [if_neg he] at hp
      exact hp
  have h10 := (mem_splitByte 10 c p hmem).1
  intro hx
  apply h10
  rw [← hpl, dropCR] at hx
  by_cases hcr : p.getLast? = some 13
  · rw [if_pos hcr] at hx
    exact (List.dropLast_sublist _).subset hx
  · rw [if_neg hcr] at hx
    exact hx

theorem scanLines_join (L : List GoStr)
    (h : ∀ l ∈ L, (10 : Nat) ∉ l ∧ l.getLast? ≠ some 13) :
    scanLines ((L.map (fun l => l ++ [10])).flatten) = L := by
  induction L with
  | nil => exact scanLines_nil
  | cons l L' ih =>
      have h1 := h l (List.mem_cons_self _ _)
      have h2 : ∀ l' ∈ L', (10 : Nat) ∉ l' ∧ l'.getLast? ≠ some 13 :=
        fun l' hl' => h l' (List.mem_cons_of_mem _ hl')
      rw [List.map_cons, List.flatten_cons]
      have hshift : (l ++ [10]) ++ (L'.map (fun l => l ++ [10])).flatten
          = l ++ 10 :: (L'.map (fun l => l ++ [10])).flatten := by simp
      rw [hshift, scanLines_cons _ _ h1.1, dropCR_of_getLast_ne _ h1.2, ih h2]

/-! ### Lemmas about the association-list map -/

theorem mapget_mapset_self (m : List (GoStr × GoStr)) (k v : GoStr) :
    mapget (mapset m k v) k = some v := by
  induction m with
  | nil => simp [mapset, mapget]
  | cons e rest ih =>
      by_cases he : e.1 = k
      · rw [mapset, if_pos he, mapget, if_pos rfl]
      · rw [mapset, if_neg he, mapget, if_neg he]
        exact ih

theorem mapget_mapset_ne (m : List (GoStr × GoStr)) (k' v k : GoStr) (hne : k' ≠ k) :
    mapget (mapset m k' v) k = mapget m k := by
  induction m with
  | nil => simp [mapset, mapget, hne]
  | cons e rest ih =>
      by_cases he : e.1 = k'
      · rw [mapset, if_pos he, mapget, if_neg hne, mapget, if_neg]
        rw [he]; exact hne
      · rw [mapset, if_neg he, mapget, mapget]
        by_cases hek : e.1 = k
        · rw [if_pos hek, if_pos hek]
        · rw [if_neg hek, if_neg hek]
          exact ih

theorem mem_mapset (m : List (GoStr × GoStr)) (k v : GoStr) :
    ∀ e ∈ mapset m k v, e ∈ m ∨ e = (k, v) := by
  induction m with
  | nil =>
      intro e he
      simp [mapset] at he
      exact Or.inr he
  | cons e0 rest ih =>
      intro e he
      by_cases h0 : e0.1 = k
      · rw [mapset, if_pos h0] at he
        rcases List.mem_cons.mp he with h | h
        · exact Or.inr h
        · exact Or.inl (List.mem_cons_of_mem _ h)
      · rw [mapset, if_neg h0] at he
        rcases List.mem_cons.mp he with h | h
        · exact Or.inl (by rw [h]; exact List.mem_cons_self _ _)
        · rcases ih e h with h' | h'
          · exact Or.inl (List.mem_cons_of_mem _ h')
          · exact Or.inr h'

theorem mapset_mem_self (m : List (GoStr × GoStr)) (k v : GoStr) :
    (k, v) ∈ mapset m k v := by
  induction m with
  | nil => simp [mapset]
  | cons e rest ih =>
      by_cases he : e.1 = k
      · rw [mapset, if_pos he]
        exact List.mem_cons_self _ _
      · rw [mapset, if_neg he]
        exact List.mem_cons_of_mem _ ih

theorem not_mem_keys_mapset (m : List (GoStr × GoStr)) (k v x : GoStr)
    (hx : x ∉ m.map Prod.fst) (hxk : x ≠ k) :
    x ∉ (mapset m k v).map Prod.fst := by
  induction m with
  | nil => simpa [mapset] using hxk
  | cons e rest ih =>
      have hx1 : ¬ x = e.1 := fun h => hx (by simp [h])
      have hx2 : x ∉ rest.map Prod.fst := fun h => hx (by simp [h])
      by_cases he : e.1 = k
      · rw [mapset, if_pos he]
        simp only [List.map_cons, List.mem_cons]
        rintro (h | h)
        · exact hxk h
        · exact hx2 h
      · rw [mapset, if_neg he]
        simp only [List.map_cons, List.mem_cons]
        rintro (h | h)
        · exact hx1 h
        · exact ih hx2 h

theorem nodup_keys_mapset (m : List (GoStr × GoStr)) (k v : GoStr)
    (h : (m.map Prod.fst).Nodup) : ((mapset m k v).map Prod.fst).Nodup := by
  induction m with
  | nil => simp [mapset]
  | cons e rest ih =>
      simp only [List.map_cons, List.nodup_cons] at h
      by_cases he : e.1 = k
      · rw [mapset, if_pos he]
        simp only [List.map_cons, List.nodup_cons]
        refine ⟨?_, h.2⟩
        rw [← he]
        exact h.1
      · rw [mapset, if_neg he]
        simp only [List.map_cons, List.nodup_cons]
        exact ⟨not_mem_keys_mapset rest k v e.1 h.1 he, ih h.2⟩

theorem mapget_eq_none_iff (m : List (GoStr × GoStr)) (k : GoStr) :
    mapget m k = none ↔ k ∉ m.map Prod.fst := by
  induction m with
  | nil => simp [mapget]
  | cons e rest ih =>
      by_cases he : e.1 = k
      · rw [mapget, if_pos he]
        simp [he]
      · rw [mapget, if_neg he]
        simp only [List.map_cons, List.mem_cons]
        rw [ih]
        constructor
        · rintro h (h' | h')
          · exact he h'.symm
          · exact h h'
        · intro h h'
          exact h (Or.inr h')

theorem mem_nodup_split (m : List (GoStr × GoStr)) (x p : GoStr)
    (hnd : (m.map Prod.fst).Nodup) (hmem : (x, p) ∈ m) :
    ∃ m1 m2, m = m1 ++ (x, p) :: m2 ∧ (∀ e ∈ m1, e.1 ≠ x) ∧ (∀ e ∈ m2, e.1 ≠ x) := by
  induction m with
  | nil => simp at hmem
  | cons e rest ih =>
      simp only [List.map_cons, List.nodup_cons] at hnd
      rcases List.mem_cons.mp hmem with h | h
      · refine ⟨[], rest, by rw [h]; rfl, by simp, ?_⟩
        intro e' he' hx
        apply hnd.1
        rw [← h]
        show x ∈ List.map Prod.fst rest
        rw [← hx]
        exact List.mem_map.mpr ⟨e', he', rfl⟩
      · obtain ⟨m1, m2, hm, h1, h2⟩ := ih hnd.2 h
        refine ⟨e :: m1, m2, by rw [hm]; rfl, ?_, h2⟩
        intro e' he'
        rcases List.mem_cons.mp he' with h' | h'
        · subst h'
          intro hx
          apply hnd.1
          have : x ∈ rest.map Prod.fst := List.mem_map.mpr ⟨(x, p), h, rfl⟩
          rw [← hx] at this
          exact this
        · exact h1 e' h'

/-! ### Lemmas about the read loop -/

theorem read_line_step_none (st : HarpoonRecord) (l : GoStr)
    (h : parse_hpoon_line l = none) : read_line_step st l = st := by
  rw [read_line_step, h]

theorem read_line_step_reserved (st : HarpoonRecord) (l : GoStr) (v : GoStr)
    (h : parse_hpoon_line l = some (LAST_MARKED_KEY, v)) :
    read_line_step st l = { st with last_marked := v } := by
  rw [read_line_step, h]
  simp

theorem read_line_step_named (st : HarpoonRecord) (l : GoStr) (k v : GoStr)
    (h : parse_hpoon_line l = some (k, v)) (hk : ¬ k = LAST_MARKED_KEY) :
    read_line_step st l = { st with marks := mapset st.marks k v } := by
  rw [read_line_step, h]
  exact if_neg hk

theorem read_lines_nil (st : HarpoonRecord) : read_lines [] st = st := rfl

theorem read_lines_cons (l : GoStr) (L : List GoStr) (st : HarpoonRecord) :
    read_lines (l :: L) st = read_lines L (read_line_step st l) := rfl

theorem read_lines_append (A B : List GoStr) (st : HarpoonRecord) :
    read_lines (A ++ B) st = read_lines B (read_lines A st) := by
  rw [read_lines, read_lines, read_lines, List.foldl_append]

theorem read_lines_last_pres (L : List GoStr) (st : HarpoonRecord) (v : GoStr)
    (hst : st.last_marked = v)
    (h : ∀ l ∈ L, ∀ kv, parse_hpoon_line l = some kv →
        kv.1 = LAST_MARKED_KEY → kv.2 = v) :
    (read_lines L st).last_marked = v := by
  induction L generalizing st with
  | nil => exact hst
  | cons l L' ih =>
      rw [read_lines_cons]
      refine ih (read_line_step st l) ?_ (fun l' hl' => h l' (List.mem_cons_of_mem _ hl'))
      cases hp : parse_hpoon_line l with
      | none => rw [read_line_step_none _ _ hp]; exact hst
      | some kv =>
          obtain ⟨k1, v1⟩ := kv
          by_cases hk : k1 = LAST_MARKED_KEY
          · subst hk
            rw [read_line_step_reserved _ _ _ hp]
            exact h l (List.mem_cons_self _ _) _ hp rfl
          · rw [read_line_step_named _ _ _ _ hp hk]
            exact hst

theorem read_lines_last_set (L : List GoStr) (st : HarpoonRecord) (v : GoStr)
    (hex : ∃ l ∈ L, parse_hpoon_line l = some (LAST_MARKED_KEY, v))
    (h : ∀ l ∈ L, ∀ kv, parse_hpoon_line l = some kv →
        kv.1 = LAST_MARKED_KEY → kv.2 = v) :
    (read_lines L st).last_marked = v := by
  induction L generalizing st with
  | nil => simp at hex
  | cons l L' ih =>
      rw [read_lines_cons]
      cases hp : parse_hpoon_line l with
      | none =>
          rw [read_line_step_none _ _ hp]
          obtain ⟨lw, hlw, hpw⟩ := hex
          rcases List.mem_cons.mp hlw with h' | h'
          · rw [h', hp] at hpw
            simp at hpw
          · exact ih st ⟨lw, h', hpw⟩ (fun l' hl' => h l' (List.mem_cons_of_mem _ hl'))
      | some kv =>
          obtain ⟨k1, v1⟩ := kv
          by_cases hk : k1 = LAST_MARKED_KEY
          · subst hk
            have hv1 : v1 = v := h l (List.mem_cons_self _ _) _ hp rfl
            rw [hv1] at hp
            rw [read_line_step_reserved _ _ _ hp]
            exact read_lines_last_pres L' _ v rfl
              (fun l' hl' => h l' (List.mem_cons_of_mem _ hl'))
          · rw [read_line_step_named _ _ _ _ hp hk]
            obtain ⟨lw, hlw, hpw⟩ := hex
            rcases List.mem_cons.mp hlw with h' | h'
            · rw [h', hp] at hpw
              simp at hpw
              exact absurd hpw.1 hk
            · exact ih _ ⟨lw, h', hpw⟩ (fun l' hl' => h l' (List.mem_cons_of_mem _ hl'))

theorem read_lines_mapget_pres (L : List GoStr) (st : HarpoonRecord) (x : GoStr)
    (h : ∀ l ∈ L, ∀ kv, parse_hpoon_line l = some kv → kv.1 ≠ x) :
    mapget (read_lines L st).marks x = mapget st.marks x := by
  induction L generalizing st with
  | nil => rfl
  | cons l L' ih =>
      rw [read_lines_cons]
      rw [ih (read_line_step st l) (fun l' hl' => h l' (List.mem_cons_of_mem _ hl'))]
      cases hp : parse_hpoon_line l with
      | none => rw [read_line_step_none _ _ hp]
      | some kv =>
          obtain ⟨k1, v1⟩ := kv
          by_cases hk : k1 = LAST_MARKED_KEY
          · subst hk
            rw [read_line_step_reserved _ _ _ hp]
          · rw [read_line_step_named _ _ _ _ hp hk]
            exact mapget_mapset_ne _ _ _ _ (h l (List.mem_cons_self _ _) _ hp)

theorem read_lines_mapget_set (A B : List GoStr) (lx : GoStr) (st : HarpoonRecord)
    (x p : GoStr) (hpx : parse_hpoon_line lx = some (x, p))
    (hx : ¬ x = LAST_MARKED_KEY)
    (hB : ∀ l ∈ B, ∀ kv, parse_hpoon_line l = some kv → kv.1 ≠ x) :
    mapget (read_lines (A ++ lx :: B) st).marks x = some p := by
  rw [read_lines_append, read_lines_cons, read_lines_mapget_pres B _ x hB,
      read_line_step_named _ _ _ _ hpx hx]
  exact mapget_mapset_self _ _ _

theorem read_lines_mapget_reserved (L : List GoStr) (st : HarpoonRecord) :
    mapget (read_lines L st).marks LAST_MARKED_KEY
      = mapget st.marks LAST_MARKED_KEY := by
  induction L generalizing st with
  | nil => rfl
  | cons l L' ih =>
      rw [read_lines_cons, ih]
      cases hp : parse_hpoon_line l with
      | none => rw [read_line_step_none _ _ hp]
      | some kv =>
          obtain ⟨k1, v1⟩ := kv
          by_cases hk : k1 = LAST_MARKED_KEY
          · subst hk
            rw [read_line_step_reserved _ _ _ hp]
          · rw [read_line_step_named _ _ _ _ hp hk]
            exact mapget_mapset_ne _ _ _ _ hk

/-- Invariant of loaded maps: keys never contain the separator or a newline
and never equal the reserved key. -/
def GoodMarks (m : List (GoStr × GoStr)) : Prop :=
  ∀ e ∈ m, KV_SEPERATOR ∉ e.1 ∧ (10 : Nat) ∉ e.1 ∧ e.1 ≠ LAST_MARKED_KEY

theorem read_lines_good (L : List GoStr) (st : HarpoonRecord)
    (hL : ∀ l ∈ L, (10 : Nat) ∉ l) (hst : GoodMarks st.marks) :
    GoodMarks (read_lines L st).marks := by
  induction L generalizing st with
  | nil => exact hst
  | cons l L' ih =>
      rw [read_lines_cons]
      refine ih (read_line_step st l) (fun l' hl' => hL l' (List.mem_cons_of_mem _ hl')) ?_
      cases hp : parse_hpoon_line l with
      | none => rw [read_line_step_none _ _ hp]; exact hst
      | some kv =>
          obtain ⟨k1, v1⟩ := kv
          by_cases hk : k1 = LAST_MARKED_KEY
          · subst hk
            rw [read_line_step_reserved _ _ _ hp]
            exact hst
          · rw [read_line_step_named _ _ _ _ hp hk]
            intro e he
            rcases mem_mapset _ _ _ e he with h' | h'
            · exact hst e h'
            · subst h'
              obtain ⟨hsep, hmem⟩ := parse_mem_key l _ hp
              exact ⟨hsep, fun h10 => hL l (List.mem_cons_self _ _) (hmem 10 h10), hk⟩

theorem read_lines_nodup (L : List GoStr) (st : HarpoonRecord)
    (h : (st.marks.map Prod.fst).Nodup) :
    ((read_lines L st).marks.map Prod.fst).Nodup := by
  induction L generalizing st with
  | nil => exact h
  | cons l L' ih =>
      rw [read_lines_cons]
      refine ih (read_line_step st l) ?_
      cases hp : parse_hpoon_line l with
      | none => rw [read_line_step_none _ _ hp]; exact h
      | some kv =>
          obtain ⟨k1, v1⟩ := kv
          by_cases hk : k1 = LAST_MARKED_KEY
          · subst hk
            rw [read_line_step_reserved _ _ _ hp]
            exact h
          · rw [read_line_step_named _ _ _ _ hp hk]
            exact nodup_keys_mapset _ _ _ h

theorem load_good (fs : FS) : GoodMarks (load_hpoon fs).marks :=
  read_lines_good _ _ (mem_scanLines _) (fun e he => by simp [emptyRecord] at he)

theorem load_nodup (fs : FS) : ((load_hpoon fs).marks.map Prod.fst).Nodup :=
  read_lines_nodup _ _ (by simp [emptyRecord])

/-! ### Lemmas about the write path -/

theorem write_foldl (m : List (GoStr × GoStr)) (acc : GoStr) :
    m.foldl
      (fun acc e => if e.2 = [] then acc else acc ++ (create_hpoon_line e.1 e.2 ++ [10]))
      acc
    = acc ++ ((m.filter fun e => !(e.2 == [])).map
        fun e => create_hpoon_line e.1 e.2 ++ [10]).flatten := by
  induction m generalizing acc with
  | nil => simp
  | cons e rest ih =>
      rw [List.foldl_cons, List.filter_cons]
      by_cases hv : e.2 = []
      · simp [hv, ih]
      · simp [hv, ih, List.append_assoc]

theorem write_eq_flatten (lm : GoStr) (m : List (GoStr × GoStr)) (hlm : ¬ lm = []) :
    write_hpoon_file ⟨lm, m⟩
    = ((create_hpoon_line LAST_MARKED_KEY lm
          :: (m.filter fun e => !(e.2 == [])).map fun e => create_hpoon_line e.1 e.2).map
        (fun l => l ++ [10])).flatten := by
  rw [write_hpoon_file]
  simp only [if_neg hlm]
  rw [write_foldl]
  rw [List.map_cons, List.flatten_cons, List.map_map]
  rfl

theorem create_line_wf (k v : GoStr) (hk : (10 : Nat) ∉ k) (hv : v ≠ []) :
    (10 : Nat) ∉ create_hpoon_line k v ∧ (create_hpoon_line k v).getLast? ≠ some 13 := by
  refine ⟨create_line_no10 k v hk, ?_⟩
  obtain ⟨c, hc, he⟩ := create_line_getLast k v hv
  rw [he]
  have := b64_mem_ge v c hc
  intro hq
  simp at hq
  omega

theorem write_scanLines (lm : GoStr) (m : List (GoStr × GoStr)) (hlm : ¬ lm = [])
    (hkeys : ∀ e ∈ m, (10 : Nat) ∉ e.1) :
    scanLines (write_hpoon_file ⟨lm, m⟩)
    = create_hpoon_line LAST_MARKED_KEY lm
        :: (m.filter fun e => !(e.2 == [])).map fun e => create_hpoon_line e.1 e.2 := by
  rw [write_eq_flatten lm m hlm]
  apply scanLines_join
  intro l hl
  rcases List.mem_cons.mp hl with h | h
  · subst h
    exact create_line_wf _ _ (by simp [LAST_MARKED_KEY]) hlm
  · obtain ⟨e, he, hel⟩ := List.mem_map.mp h
    have hem : e ∈ m := (List.mem_filter.mp he).1
    have hev : e.2 ≠ [] := by
      have := (List.mem_filter.mp he).2
      simp at this
      exact this
    rw [← hel]
    exact create_line_wf _ _ (hkeys e hem) hev

/-! ### Read-after-write -/

theorem set_mark_none_eq (fs : FS) (p : GoStr) :
    hpoon_set_mark fs p none
      = some (write_hpoon_file ⟨p, (load_hpoon fs).marks⟩) := rfl

theorem set_mark_some_eq (fs : FS) (p n : GoStr) :
    hpoon_set_mark fs p (some n)
      = some (write_hpoon_file ⟨p, mapset (load_hpoon fs).marks n p⟩) := rfl

theorem get_mark_none_eq (fs : FS) :
    hpoon_get_mark fs none = some (load_hpoon fs).last_marked := rfl

theorem get_mark_some_eq (fs : FS) (n : GoStr) :
    hpoon_get_mark fs (some n) = mapget (load_hpoon fs).marks n := rfl

theorem load_some_eq (c : GoStr) : load_hpoon (some c) = read_hpoon_file c := rfl

theorem read_mapget_reserved (content : GoStr) :
    mapget (read_hpoon_file content).marks LAST_MARKED_KEY = none := by
  rw [read_hpoon_file, read_lines_mapget_reserved]
  rfl

theorem read_write_last (lm : GoStr) (m : List (GoStr × GoStr))
    (hb : ∀ b ∈ lm, b < 256) (hsep : KV_SEPERATOR ∉ b64encode lm)
    (hkeys : ∀ e ∈ m, KV_SEPERATOR ∉ e.1 ∧ (10 : Nat) ∉ e.1)
    (hres : ∀ e ∈ m, e.1 = LAST_MARKED_KEY → e.2 = lm) :
    (read_hpoon_file (write_hpoon_file ⟨lm, m⟩)).last_marked = lm := by
  by_cases hlm : lm = []
  · subst hlm
    rw [show write_hpoon_file ⟨[], m⟩ = [] from rfl]
    rfl
  · have hsc := write_scanLines lm m hlm (fun e he => (hkeys e he).2)
    have hsep95 : KV_SEPERATOR ∉ LAST_MARKED_KEY := by decide
    have hp0 : parse_hpoon_line (create_hpoon_line LAST_MARKED_KEY lm)
        = some (LAST_MARKED_KEY, lm) := parse_create _ _ hsep95 hsep hb
    rw [read_hpoon_file, hsc]
    apply read_lines_last_set
    · exact ⟨create_hpoon_line LAST_MARKED_KEY lm, List.mem_cons_self _ _, hp0⟩
    · intro l hl kv hpkv hk1
      rcases List.mem_cons.mp hl with h | h
      · subst h
        rw [hp0] at hpkv
        have := Option.some.inj hpkv
        rw [← this]
      · obtain ⟨e, he, hel⟩ := List.mem_map.mp h
        have hem : e ∈ m := (List.mem_filter.mp he).1
        by_cases hek : e.1 = LAST_MARKED_KEY
        · have hev : e.2 = lm := hres e hem hek
          rw [← hel, hek, hev, hp0] at hpkv
          have := Option.some.inj hpkv
          rw [← this]
        · have hkey : kv.1 = e.1 := by
            apply parse_key e.1 (b64encode e.2) (hkeys e hem).1 kv
            rw [← create_hpoon_line, hel]
            exact hpkv
          rw [hkey] at hk1
          exact absurd hk1 hek

theorem read_write_mapget (lm : GoStr) (m : List (GoStr × GoStr)) (x p : GoStr)
    (hlm : ¬ lm = [])
    (hkeys : ∀ e ∈ m, KV_SEPERATOR ∉ e.1 ∧ (10 : Nat) ∉ e.1)
    (hnd : (m.map Prod.fst).Nodup)
    (hmem : (x, p) ∈ m) (hp : p ≠ []) (hpb : ∀ b ∈ p, b < 256)
    (hpsep : KV_SEPERATOR ∉ b64encode p) (hx : ¬ x = LAST_MARKED_KEY) :
    mapget (read_hpoon_file (write_hpoon_file ⟨lm, m⟩)).marks x = some p := by
  have hsc := write_scanLines lm m hlm (fun e he => (hkeys e he).2)
  set M := m.filter (fun e => !(e.2 == [])) with hM
  have hmemM : (x, p) ∈ M := by
    rw [hM]
    apply List.mem_filter.mpr
    exact ⟨hmem, by simp [hp]⟩
  have hndM : (M.map Prod.fst).Nodup := by
    apply List.Nodup.sublist _ hnd
    exact List.Sublist.map Prod.fst (List.filter_sublist m)
  obtain ⟨A, B, hAB, hA, hB⟩ := mem_nodup_split M x p hndM hmemM
  rw [read_hpoon_file, hsc, hAB, List.map_append, List.map_cons]
  have hsplit :
      create_hpoon_line LAST_MARKED_KEY lm
        :: (A.map (fun e => create_hpoon_line e.1 e.2)
            ++ create_hpoon_line x p :: B.map (fun e => create_hpoon_line e.1 e.2))
      = (create_hpoon_line LAST_MARKED_KEY lm
          :: A.map (fun e => create_hpoon_line e.1 e.2))
        ++ create_hpoon_line x p :: B.map (fun e => create_hpoon_line e.1 e.2) := rfl
  rw [hsplit]
  apply read_lines_mapget_set
  · exact parse_create x p (hkeys (x, p) hmem).1 hpsep hpb
  · exact hx
  · intro l hl kv hpkv
    obtain ⟨e, he, hel⟩ := List.mem_map.mp hl
    have heM : e ∈ M := by
      rw [hAB]
      exact List.mem_append.mpr (Or.inr (List.mem_cons_of_mem _ he))
    have hem : e ∈ m := (List.mem_filter.mp heM).1
    have hkey : kv.1 = e.1 := by
      apply parse_key e.1 (b64encode e.2) (hkeys e hem).1 kv
      rw [← create_hpoon_line, hel]
      exact hpkv
    rw [hkey]
    exact hB e he

/-! ### Skip-equivalence and last-occurrence characterisations of the read loop -/

theorem read_lines_filter (L : List GoStr) (st : HarpoonRecord) :
    read_lines L st
      = read_lines (L.filter fun l => (parse_hpoon_line l).isSome) st := by
  induction L generalizing st with
  | nil => rfl
  | cons l L' ih =>
      rw [read_lines_cons, List.filter_cons]
      cases hp : parse_hpoon_line l with
      | none =>
          rw [read_line_step_none _ _ hp, if_neg (by simp [hp])]
          exact ih st
      | some kv =>
          rw [if_pos (by simp [hp]), read_lines_cons]
          exact ih _

theorem getLast?_cons_some {α : Type} (a : α) (l : List α) (x : α)
    (h : l.getLast? = some x) : (a :: l).getLast? = some x := by
  cases l with
  | nil => simp at h
  | cons b l' => rw [List.getLast?_cons_cons]; exact h

theorem read_lines_last_filter (L : List GoStr) (st : HarpoonRecord) :
    (read_lines L st).last_marked
      = match ((L.filterMap parse_hpoon_line).filter
            fun kv => kv.1 == LAST_MARKED_KEY).getLast? with
        | some kv => kv.2
        | none => st.last_marked := by
  induction L generalizing st with
  | nil => rfl
  | cons l L' ih =>
      rw [read_lines_cons]
      cases hp : parse_hpoon_line l with
      | none =>
          rw [read_line_step_none _ _ hp, List.filterMap_cons_none hp]
          exact ih st
      | some kv =>
          obtain ⟨k1, v1⟩ := kv
          rw [List.filterMap_cons_some hp, List.filter_cons]
          by_cases hk : k1 = LAST_MARKED_KEY
          · subst hk
            rw [read_line_step_reserved _ _ _ hp, if_pos (by simp), ih]
            cases hxs : ((L'.filterMap parse_hpoon_line).filter
                fun kv => kv.1 == LAST_MARKED_KEY).getLast? with
            | none =>
                rw [List.getLast?_eq_none_iff.mp hxs]
                rfl
            | some kv' =>
                rw [getLast?_cons_some _ _ _ hxs]
          · rw [read_line_step_named _ _ _ _ hp hk, if_neg (by simp [hk]), ih]

theorem read_lines_mapget_filter (L : List GoStr) (st : HarpoonRecord) (k : GoStr)
    (hk95 : ¬ k = LAST_MARKED_KEY) :
    mapget (read_lines L st).marks k
      = match ((L.filterMap parse_hpoon_line).filter
            fun kv => kv.1 == k).getLast? with
        | some kv => some kv.2
        | none => mapget st.marks k := by
  induction L generalizing st with
  | nil => rfl
  | cons l L' ih =>
      rw [read_lines_cons]
      cases hp : parse_hpoon_line l with
      | none =>
          rw [read_line_step_none _ _ hp, List.filterMap_cons_none hp]
          exact ih st
      | some kv =>
          obtain ⟨k1, v1⟩ := kv
          rw [List.filterMap_cons_some hp, List.filter_cons]
          by_cases hkk : k1 = k
          · subst hkk
            rw [read_line_step_named _ _ _ _ hp hk95, if_pos (by simp), ih]
            cases hxs : ((L'.filterMap parse_hpoon_line).filter
                fun kv => kv.1 == k1).getLast? with
            | none =>
                rw [List.getLast?_eq_none_iff.mp hxs]
                show mapget (mapset st.marks k1 v1) k1 = some v1
                exact mapget_mapset_self _ _ _
            | some kv' =>
                rw [getLast?_cons_some _ _ _ hxs]
          · rw [if_neg (by simp [hkk])]
            by_cases hk1 : k1 = LAST_MARKED_KEY
            · subst hk1
              rw [read_line_step_reserved _ _ _ hp, ih]
            · rw [read_line_step_named _ _ _ _ hp hk1, ih]
              cases hxs : ((L'.filterMap parse_hpoon_line).filter
                  fun kv => kv.1 == k).getLast? with
              | none => exact mapget_mapset_ne _ _ _ _ hkk
              | some kv' => rfl

/-! ### The claims -/

/-- Claim C1, counterexample: the claim fails as stated.  The standard base64
alphabet contains the separator `/` itself: encoding the one-byte path `0xff`
yields `/w==`, so the line `k//w==` splits into three parts and
`parse_hpoon_line` rejects it, although the key `k` is not the reserved key. -/
theorem c1_counterexample :
    ([107] : GoStr) ≠ LAST_MARKED_KEY ∧
    KV_SEPERATOR ∈ b64encode [255] ∧
    parse_hpoon_line (create_hpoon_line [107] [255]) = none := by decide

/-- Claim C1 (amended): codec round-trip.  For every key not containing the
separator and different from the reserved key, and every byte-string path
whose base64 encoding does not contain the separator, decoding the encoded
line gives back exactly the pair. -/
theorem c1_roundtrip (k p : GoStr) (hk : KV_SEPERATOR ∉ k)
    (_hres : k ≠ LAST_MARKED_KEY) (hb : ∀ b ∈ p, b < 256)
    (hsep : KV_SEPERATOR ∉ b64encode p) :
    parse_hpoon_line (create_hpoon_line k p) = some (k, p) :=
  parse_create k p hk hsep hb

/-- Witness for C1: the round-trip theorem applied to key `k` and path `hi`. -/
theorem c1_roundtrip_witness :
    parse_hpoon_line (create_hpoon_line [107] [104, 105]) = some ([107], [104, 105]) :=
  c1_roundtrip [107] [104, 105] (by decide) (by decide) (by decide) (by decide)

/-- Claim C2, counterexample: the claim fails as stated.  After
`set_mark "\xff" nil`, the stored line is `_//w==`; reloading rejects it
(three separator-split parts), so `get_mark nil` returns the empty string
instead of the path. -/
theorem c2_counterexample :
    hpoon_get_mark (hpoon_set_mark none [255] none) none = some [] ∧
    hpoon_get_mark (hpoon_set_mark none [255] none) none ≠ some [255] := by decide

/-- Claim C2 (amended): set-then-get.  For a path whose base64 encoding does
not contain the separator, `get_mark nil` after `set_mark p nil` returns `p`;
and additionally for a non-empty such path and a name that contains neither
the separator nor a newline and is not the reserved key, `get_mark x` and
`get_mark nil` after `set_mark p x` both return `p`, from any starting
filesystem state. -/
theorem c2_set_then_get (fs : FS) (p x : GoStr)
    (hb : ∀ b ∈ p, b < 256) (hsep : KV_SEPERATOR ∉ b64encode p) :
    hpoon_get_mark (hpoon_set_mark fs p none) none = some p ∧
    (p ≠ [] → KV_SEPERATOR ∉ x → (10 : Nat) ∉ x → x ≠ LAST_MARKED_KEY →
      hpoon_get_mark (hpoon_set_mark fs p (some x)) (some x) = some p ∧
      hpoon_get_mark (hpoon_set_mark fs p (some x)) none = some p) := by
  have hgood := load_good fs
  have hnd := load_nodup fs
  constructor
  · rw [set_mark_none_eq, get_mark_none_eq, load_some_eq]
    rw [read_write_last p _ hb hsep
      (fun e he => ⟨(hgood e he).1, (hgood e he).2.1⟩)
      (fun e he hk => absurd hk (hgood e he).2.2)]
  · intro hp hx47 hx10 hx95
    have hkeys1 : ∀ e ∈ mapset (load_hpoon fs).marks x p,
        KV_SEPERATOR ∉ e.1 ∧ (10 : Nat) ∉ e.1 := by
      intro e he
      rcases mem_mapset _ _ _ e he with h | h
      · exact ⟨(hgood e h).1, (hgood e h).2.1⟩
      · subst h
        exact ⟨hx47, hx10⟩
    have hres1 : ∀ e ∈ mapset (load_hpoon fs).marks x p,
        e.1 = LAST_MARKED_KEY → e.2 = p := by
      intro e he hk
      rcases mem_mapset _ _ _ e he with h | h
      · exact absurd hk (hgood e h).2.2
      · subst h
        exact absurd hk hx95
    constructor
    · rw [set_mark_some_eq, get_mark_some_eq, load_some_eq]
      exact read_write_mapget p _ x p hp hkeys1 (nodup_keys_mapset _ _ _ hnd)
        (mapset_mem_self _ _ _) hp hb hsep hx95
    · rw [set_mark_some_eq, get_mark_none_eq, load_some_eq]
      rw [read_write_last p _ hb hsep hkeys1 hres1]

/-- Witness for C2: setting path `h` under name `x` on an empty filesystem and
reading it back by name. -/
theorem c2_set_then_get_witness :
    hpoon_get_mark (hpoon_set_mark none [104] (some [120])) (some [120])
      = some [104] :=
  ((c2_set_then_get none [104] [120] (by decide) (by decide)).2
    (by decide) (by decide) (by decide) (by decide)).1

/-- Claim C3: destructive empty-save quirk.  Whatever the marks map holds,
saving a record with empty `last_marked` truncates the file to nothing, and
reloading that file yields the empty record. -/
theorem c3_empty_save_quirk (m : List (GoStr × GoStr)) :
    write_hpoon_file ⟨[], m⟩ = [] ∧
    read_hpoon_file (write_hpoon_file ⟨[], m⟩) = emptyRecord :=
  ⟨rfl, rfl⟩

/-- Claim C4: corruption tolerance.  Reading any store-file content is the
same as reading only its parseable lines — every malformed or undecodable
line is skipped without affecting the rest, and no failure is raised.  On the
concrete file `xx\nn/aGk=\n` (one malformed line, one well-formed line), the
well-formed mark survives. -/
theorem c4_corruption_tolerance :
    (∀ content : GoStr,
      read_hpoon_file content
        = read_lines ((scanLines content).filter
            fun l => (parse_hpoon_line l).isSome) emptyRecord) ∧
    read_hpoon_file [120, 120, 10, 110, 47, 97, 71, 107, 61, 10]
      = ⟨[], [([110], [104, 105])]⟩ :=
  ⟨fun content => read_lines_filter (scanLines content) emptyRecord, by decide⟩

/-- Claim C5: last occurrence wins on load.  Over any content, `last_marked`
is the value of the last well-formed reserved-key line (empty if none), and
the map binds any non-reserved key to the value of the last well-formed line
carrying that key, in file order. -/
theorem c5_last_occurrence_wins :
    (∀ content : GoStr,
      (read_hpoon_file content).last_marked
        = match (((scanLines content).filterMap parse_hpoon_line).filter
              fun kv => kv.1 == LAST_MARKED_KEY).getLast? with
          | some kv => kv.2
          | none => []) ∧
    (∀ content k, ¬ k = LAST_MARKED_KEY →
      mapget (read_hpoon_file content).marks k
        = ((((scanLines content).filterMap parse_hpoon_line).filter
              fun kv => kv.1 == k).getLast?).map Prod.snd) := by
  constructor
  · intro content
    exact read_lines_last_filter (scanLines content) emptyRecord
  · intro content k hk
    rw [read_hpoon_file, read_lines_mapget_filter _ _ k hk]
    cases (((scanLines content).filterMap parse_hpoon_line).filter
        fun kv => kv.1 == k).getLast? with
    | none => rfl
    | some kv => rfl

/-- Witness for C5: on `n/YQ==\nn/aA==\n` the key `n` appears twice; the
loaded value is the second one (`h`), as the theorem instance computes. -/
theorem c5_last_occurrence_wins_witness :
    mapget (read_hpoon_file
        [110, 47, 89, 81, 61, 61, 10, 110, 47, 97, 65, 61, 61, 10]).marks [110]
      = some [104] :=
  (c5_last_occurrence_wins.2
      [110, 47, 89, 81, 61, 61, 10, 110, 47, 97, 65, 61, 61, 10] [110]
      (by decide)).trans (by decide)

/-- Claim C6: get-mark contract.  For every store state, `get_mark nil` never
fails and returns `last_marked`; `get_mark name` returns the map entry and
fails exactly when the name is absent from the map's keys. -/
theorem c6_get_mark_contract (fs : FS) (n : GoStr) :
    hpoon_get_mark fs none = some (load_hpoon fs).last_marked ∧
    hpoon_get_mark fs (some n) = mapget (load_hpoon fs).marks n ∧
    (hpoon_get_mark fs (some n) = none
      ↔ n ∉ (load_hpoon fs).marks.map Prod.fst) :=
  ⟨rfl, rfl, by rw [get_mark_some_eq]; exact mapget_eq_none_iff _ _⟩

/-- Claim C7: save layout.  A record with non-empty `last_marked` is written
as the reserved line first, then exactly one line per entry with a non-empty
path, each newline-terminated, and nothing else; scanning the written file
returns exactly those lines. -/
theorem c7_save_layout (r : HarpoonRecord) (hlm : ¬ r.last_marked = [])
    (hkeys : ∀ e ∈ r.marks, (10 : Nat) ∉ e.1) :
    write_hpoon_file r
      = ((create_hpoon_line LAST_MARKED_KEY r.last_marked
          :: (r.marks.filter fun e => !(e.2 == [])).map
              (fun e => create_hpoon_line e.1 e.2)).map (fun l => l ++ [10])).flatten ∧
    scanLines (write_hpoon_file r)
      = create_hpoon_line LAST_MARKED_KEY r.last_marked
          :: (r.marks.filter fun e => !(e.2 == [])).map
              (fun e => create_hpoon_line e.1 e.2) := by
  obtain ⟨lm, m⟩ := r
  exact ⟨write_eq_flatten lm m hlm, write_scanLines lm m hlm hkeys⟩

/-- Witness for C7: the layout theorem applied to a concrete record with one
kept entry and one empty-path entry. -/
theorem c7_save_layout_witness :
    scanLines (write_hpoon_file ⟨[97], [([110], [104]), ([109], [])]⟩)
      = create_hpoon_line LAST_MARKED_KEY [97]
          :: (([([110], [104]), ([109], [])] :
                List (GoStr × GoStr)).filter fun e => !(e.2 == [])).map
              (fun e => create_hpoon_line e.1 e.2) :=
  (c7_save_layout ⟨[97], [([110], [104]), ([109], [])]⟩ (by decide) (by decide)).2

/-- Claim C8: clean resets state.  `clean` removes the backing file (total
even when the file is absent); after it, the next load sees the implicit
empty record, `get_mark nil` returns the empty value, and the mark listing is
empty. -/
theorem c8_clean_resets (fs : FS) :
    hpoon_clean fs = none ∧
    load_hpoon (hpoon_clean fs) = emptyRecord ∧
    hpoon_get_mark (hpoon_clean fs) none = some [] ∧
    hpoon_list (hpoon_clean fs) = [] :=
  ⟨rfl, rfl, rfl, rfl⟩

/-- Claim C9: the two-argument form stores the path argument verbatim —
existence is checked on the argument as given, only the literal `.` is
replaced by the working directory, and no absolute-path resolution happens —
whereas the one-argument form stores the `filepath.Abs` resolution. -/
theorem c9_double_arg_verbatim (fs : FS) (arg name cwd : GoStr)
    (path_exists : GoStr → Bool) (abs : GoStr → GoStr) :
    (path_exists arg = true → ¬ arg = [46] →
      run_double_arg fs arg name path_exists cwd
        = some (hpoon_set_mark fs arg (some name))) ∧
    (path_exists [46] = true →
      run_double_arg fs [46] name path_exists cwd
        = some (hpoon_set_mark fs cwd (some name))) ∧
    (path_exists arg = false →
      run_double_arg fs arg name path_exists cwd = none) ∧
    (path_exists (abs arg) = true →
      run_single_arg_path fs abs arg path_exists
        = some (hpoon_set_mark fs (abs arg) none)) := by
  refine ⟨?_, ?_, ?_, ?_⟩
  · intro he hdot
    rw [run_double_arg, he]
    simp [hdot]
  · intro he
    rw [run_double_arg, he]
    simp
  · intro he
    rw [run_double_arg, he]
    simp
  · intro he
    rw [run_single_arg_path, he]
    simp

/-- Witness for C9: a two-argument call with an existing, non-dot path stores
the argument exactly as given. -/
theorem c9_double_arg_verbatim_witness :
    run_double_arg none [97] [110] (fun _ => true) [99]
      = some (hpoon_set_mark none [97] (some [110])) :=
  (c9_double_arg_verbatim none [97] [110] [99] (fun _ => true) id).1 rfl (by decide)

/-- Claim C10: reserved-name collision loses the mark.  For any byte-string
path whose base64 encoding avoids the separator, after `set_mark p "_"` the
reloaded marks map has no `"_"` entry (the named lookup fails) while
`last_marked` equals `p`. -/
theorem c10_reserved_collision (fs : FS) (p : GoStr)
    (hb : ∀ b ∈ p, b < 256) (hsep : KV_SEPERATOR ∉ b64encode p) :
    hpoon_get_mark (hpoon_set_mark fs p (some LAST_MARKED_KEY))
        (some LAST_MARKED_KEY) = none ∧
    hpoon_get_mark (hpoon_set_mark fs p (some LAST_MARKED_KEY)) none = some p := by
  have hgood := load_good fs
  have hkeys1 : ∀ e ∈ mapset (load_hpoon fs).marks LAST_MARKED_KEY p,
      KV_SEPERATOR ∉ e.1 ∧ (10 : Nat) ∉ e.1 := by
    intro e he
    rcases mem_mapset _ _ _ e he with h | h
    · exact ⟨(hgood e h).1, (hgood e h).2.1⟩
    · subst h
      refine ⟨?_, ?_⟩
      · show KV_SEPERATOR ∉ LAST_MARKED_KEY
        decide
      · show (10 : Nat) ∉ LAST_MARKED_KEY
        decide
  have hres1 : ∀ e ∈ mapset (load_hpoon fs).marks LAST_MARKED_KEY p,
      e.1 = LAST_MARKED_KEY → e.2 = p := by
    intro e he hk
    rcases mem_mapset _ _ _ e he with h | h
    · exact absurd hk (hgood e h).2.2
    · rw [h]
  constructor
  · rw [set_mark_some_eq, get_mark_some_eq, load_some_eq]
    exact read_mapget_reserved _
  · rw [set_mark_some_eq, get_mark_none_eq, load_some_eq]
    rw [read_write_last p _ hb hsep hkeys1 hres1]

/-- Witness for C10: on an empty filesystem, marking `h` under the reserved
name makes the named lookup fail while the unnamed lookup returns the path. -/
theorem c10_reserved_collision_witness :
    hpoon_get_mark (hpoon_set_mark none [104] (some LAST_MARKED_KEY))
        (some LAST_MARKED_KEY) = none ∧
    hpoon_get_mark (hpoon_set_mark none [104] (some LAST_MARKED_KEY)) none
      = some [104] :=
  c10_reserved_collision none [104] (by decide) (by decide)

end Hpoon
